import Mathlib

/-!
Verification development for the mentat pair-programming assistant.

The development shallowly embeds the parts of the code base that the
specification talks about:

* the multi-grammar edit parsers (Block, Replacement, Git/unified-diff),
  their canonical renderings (`to_text`) and the pure translator built on
  them.  The parser sources are not part of the checked tree, so these
  components are modelled from the specification (each such definition says
  so in its doc comment);
* the session message bus (`mentat/session_stream.py`), the terminal
  client's input-request handler (`mentat/terminal/client.py`), the loading
  bar (`mentat/terminal/loading.py`) and the interval-literal syntax used
  by `expand_paths`.

Text is embedded line-structured: a text is a `List Line`, where each
`Line` is a tokenized form of one physical line (a grammar header, a
sentinel, a diff line, or a plain content line).  The characters of a line
are a `List Char` so that the raw-text body of a Block edit (joining and
re-splitting on newlines) can be reasoned about directly.
-/

namespace Mentat

/-- Characters of one physical line of text. -/
abbrev Chars := List Char

/-! ### Joining and splitting raw text on a separator character

The Block grammar's body is raw replacement text (spec 4.2); a list of
lines is rendered by joining with a newline and recovered by splitting.
Splitting the empty text yields one empty line, not zero lines, which is
the documented expressiveness gap for deletions (spec 9). -/

/-- Join a list of lines into raw text with `sep` between the lines. -/
def joinWithChar (sep : Char) : List Chars → Chars
  | [] => []
  | [l] => l
  | l :: ls => l ++ sep :: joinWithChar sep ls

/-- Split raw text at every occurrence of `sep`.  The result is never
empty: splitting the empty text yields one empty line. -/
def splitOnChar (sep : Char) : Chars → List Chars
  | [] => [[]]
  | c :: cs =>
    match splitOnChar sep cs with
    | [] => [[]]
    | l :: ls => if c = sep then [] :: l :: ls else (c :: l) :: ls

/-- Join lines of a Block body into its raw replacement text. -/
def joinNl (ls : List Chars) : Chars := joinWithChar '\n' ls

/-- Split the raw replacement text of a Block body back into lines. -/
def splitOnNl (cs : Chars) : List Chars := splitOnChar '\n' cs

/-! ### The canonical edit model (spec 3) -/

/-- An inclusive, 1-indexed line range. -/
structure Interval where
  start : Nat
  fin : Nat
deriving DecidableEq, Repr

/-- One contiguous line-range substitution within a FileEdit. -/
structure Replacement where
  interval : Interval
  newLines : List Chars
deriving DecidableEq, Repr

/-- The action of a FileEdit (spec 3). -/
inductive EditAction where
  | edit
  | create
  | deleteFile
  | rename
  | renameAndEdit
deriving DecidableEq, Repr

/-- Canonical, grammar-independent description of changes to one file. -/
structure FileEdit where
  path : String
  action : EditAction := .edit
  replacements : List Replacement
deriving DecidableEq, Repr

/-- Result of a full (non-streaming) parse: the buffered edits plus the
flag recording that the stream ended inside an unterminated block
(`partial` in the spec; named `truncated` here). -/
structure ParseResult where
  edits : List FileEdit
  truncated : Bool
deriving DecidableEq, Repr

/-! ### Line-structured text

One `Line` is the tokenized form of one physical line of model output. -/

/-- Tokenized form of one physical line of text. -/
inductive Line where
  /-- Block grammar: sentinel header carrying path, action (edit) and the
  model-declared interval (spec 4.2). -/
  | blockHeader (path : String) (start fin : Nat)
  /-- Block grammar: the body sentinel between header and raw text. -/
  | blockBody
  /-- Block grammar: the end sentinel closing a block. -/
  | blockEnd
  /-- Replacement grammar: inline header `path:start-end` (spec 4.2). -/
  | replHeader (path : String) (start fin : Nat)
  /-- Git grammar: a `--- path` filename line. -/
  | minusFile (path : String)
  /-- Git grammar: a `+++ path` filename line. -/
  | plusFile (path : String)
  /-- Git grammar: an `@@ -a,b +c,d @@` hunk header. -/
  | hunkHeader (oldStart oldCount newStart newCount : Nat)
  /-- Git grammar: a context line (leading space). -/
  | context (s : Chars)
  /-- Git grammar: a removed line (leading `-`). -/
  | minus (s : Chars)
  /-- Git grammar: an added line (leading `+`). -/
  | plus (s : Chars)
  /-- Any other physical line (prose or a grammar body line). -/
  | content (s : Chars)
deriving DecidableEq, Repr

/-- A text is a sequence of physical lines. -/
abbrev Text := List Line

/-! ### Block grammar (modelled from the spec)

Modelled from the spec: the Block parser source is not in the checked
tree.  Spec 4.2: "Block: sentinel-delimited — a header carrying path and
action, a body sentinel, raw replacement text, an end sentinel.  One block
yields one FileEdit with a single Replacement spanning a model-declared
interval".  Streaming parse is the state machine of spec 4.2 with states
Idle/InProse (here `idle`), InHeader (`inHeader`), InBody (`inBody`) and
Closed (the transition that appends the finished FileEdit).  The body
between the sentinels is raw replacement text, so the parser recovers the
body lines by splitting that raw text on newlines; an empty raw body
therefore parses as one empty line, which is the expressiveness gap for
deletions recorded in spec 9.  The whole-file default interval (used when
a block declares no interval) needs the file length and is not needed by
any claim, so the model always carries the declared interval. -/

/-- State of the Block grammar's streaming state machine (spec 4.2). -/
inductive BlockMode where
  | idle
  | inHeader (path : String) (start fin : Nat)
  | inBody (path : String) (start fin : Nat) (revLines : List Chars)
deriving DecidableEq, Repr

/-- Accumulated state of a Block parse: closed edits plus the machine mode. -/
structure BlockState where
  edits : List FileEdit
  mode : BlockMode
deriving DecidableEq, Repr

/-- Modelled from the spec: closing a block turns the raw replacement text
accumulated between the sentinels into the single Replacement of one
FileEdit (spec 4.2).  The body lines come from splitting the joined raw
text, which is where a deletion (empty body) becomes one empty line. -/
def closeBlock (path : String) (start fin : Nat) (revLines : List Chars) : FileEdit :=
  ⟨path, .edit, [⟨⟨start, fin⟩, splitOnNl (joinNl revLines.reverse)⟩]⟩

/-- Modelled from the spec: one `feed` transition of the Block state
machine (spec 4.2).  A malformed line inside a block drops the offending
block and continues (spec 7, ParseError). -/
def blockFeed (st : BlockState) (l : Line) : BlockState :=
  match st.mode, l with
  | .idle, .blockHeader p s f => ⟨st.edits, .inHeader p s f⟩
  | .idle, _ => st
  | .inHeader _ _ _, .blockBody =>
    match st.mode with
    | .inHeader p s f => ⟨st.edits, .inBody p s f []⟩
    | _ => st
  | .inHeader _ _ _, .blockHeader p s f => ⟨st.edits, .inHeader p s f⟩
  | .inHeader _ _ _, _ => ⟨st.edits, .idle⟩
  | .inBody p s f acc, .content c => ⟨st.edits, .inBody p s f (c :: acc)⟩
  | .inBody p s f acc, .blockEnd => ⟨st.edits ++ [closeBlock p s f acc], .idle⟩
  | .inBody _ _ _ _, _ => ⟨st.edits, .idle⟩

/-- Modelled from the spec: full (non-streaming) Block parse.  If the text
ends while the machine is not in `Idle`, the unterminated block is
discarded and the result is marked partial; all previously closed blocks
are kept (spec 4.2). -/
def blockParse (t : Text) : ParseResult :=
  let fin := t.foldl blockFeed ⟨[], .idle⟩
  ⟨fin.edits, decide (fin.mode ≠ .idle)⟩

/-- Modelled from the spec: canonical Block rendering of one FileEdit,
one sentinel-delimited block per Replacement (spec 4.2). -/
def blockRender (fe : FileEdit) : Text :=
  fe.replacements.flatMap fun r =>
    Line.blockHeader fe.path r.interval.start r.interval.fin ::
      Line.blockBody :: (r.newLines.map Line.content ++ [Line.blockEnd])

/-- Modelled from the spec: `to_text` of the Block grammar. -/
def blockToText (es : List FileEdit) : Text := es.flatMap blockRender

/-! ### Replacement grammar (modelled from the spec)

Modelled from the spec: the Replacement parser source is not in the
checked tree.  Spec 4.2: "Replacement: inline header syntax
`path:start-end` per line, followed by replacement body; multiple
intervals per file in one message each become a separate Replacement
within one FileEdit".  A body ends at the next header (or any other
structured line, or the end of the text), so a deletion is a header
followed directly by the next header: deletions are expressible in this
grammar. -/

/-- State of the Replacement grammar's streaming state machine. -/
inductive ReplMode where
  | idle
  | inBody (path : String) (start fin : Nat) (revLines : List Chars)
deriving DecidableEq, Repr

/-- Accumulated state of a Replacement parse: the closed
`(path, replacement)` pairs in input order plus the machine mode. -/
structure ReplState where
  pairs : List (String × Replacement)
  mode : ReplMode
deriving DecidableEq, Repr

/-- Modelled from the spec: close the replacement body currently being
collected, if any. -/
def closeRepl (st : ReplState) : ReplState :=
  match st.mode with
  | .idle => st
  | .inBody p s f acc => ⟨st.pairs ++ [(p, ⟨⟨s, f⟩, acc.reverse⟩)], .idle⟩

/-- Modelled from the spec: one `feed` transition of the Replacement
state machine.  A new header closes the current body and opens the next;
a content line extends the current body (or is prose when no body is
open); any other structured line closes the current body. -/
def replFeed (st : ReplState) (l : Line) : ReplState :=
  match l with
  | .replHeader p s f => ⟨(closeRepl st).pairs, .inBody p s f []⟩
  | .content c =>
    match st.mode with
    | .inBody p s f acc => ⟨st.pairs, .inBody p s f (c :: acc)⟩
    | .idle => st
  | _ => closeRepl st

/-- Modelled from the spec: merge consecutive same-path
`(path, replacement)` pairs into one FileEdit each (spec 4.2: multiple
intervals per file become separate Replacements within one FileEdit). -/
def groupByPath : List (String × Replacement) → List FileEdit
  | [] => []
  | (p, r) :: rest =>
    match groupByPath rest with
    | [] => [⟨p, .edit, [r]⟩]
    | fe :: fes =>
      if fe.path = p then ⟨p, .edit, r :: fe.replacements⟩ :: fes
      else ⟨p, .edit, [r]⟩ :: fe :: fes

/-- Modelled from the spec: full (non-streaming) Replacement parse.  The
grammar has no end sentinel, so the end of the text closes the open body
and the result is never partial. -/
def replParse (t : Text) : ParseResult :=
  ⟨groupByPath (closeRepl (t.foldl replFeed ⟨[], .idle⟩)).pairs, false⟩

/-- Modelled from the spec: one rendered `(path, replacement)` segment of
the Replacement grammar. -/
def replRenderPair (pr : String × Replacement) : Text :=
  Line.replHeader pr.1 pr.2.interval.start pr.2.interval.fin ::
    pr.2.newLines.map Line.content

/-- Flatten an edit set into its `(path, replacement)` pairs in order. -/
def pairsOf (es : List FileEdit) : List (String × Replacement) :=
  es.flatMap fun fe => fe.replacements.map ((fe.path, ·))

/-- Modelled from the spec: `to_text` of the Replacement grammar. -/
def replToText (es : List FileEdit) : Text :=
  (pairsOf es).flatMap replRenderPair

/-! ### Git (unified-diff) grammar (modelled from the spec)

Modelled from the spec: the Git parser source is not in the checked
tree.  Spec 4.2: "Git (unified-diff): parses `---`/`+++`/`@@` hunk
headers with context lines".  Each `---`/`+++` pair opens one FileEdit;
each `@@` hunk yields one Replacement whose interval is taken from the
old-side start and count of the hunk header and whose new lines are the
context and `+` lines of the hunk in order.  The canonical rendering
emits minimal hunks without context (rendering context and `-` lines
would need the original file contents, which `to_text` does not have).
The tolerance policy for hunks that deviate from their header is modelled
separately below (`applyHunkLines`). -/

/-- State of the Git grammar's streaming state machine. -/
inductive GitMode where
  | idle
  | awaitingPlus (path : String)
  | inFile (path : String) (revRepls : List Replacement)
  | inHunk (path : String) (revRepls : List Replacement)
      (oldStart oldCount : Nat) (revNew : List Chars)
deriving DecidableEq, Repr

/-- Accumulated state of a Git parse. -/
structure GitState where
  edits : List FileEdit
  mode : GitMode
deriving DecidableEq, Repr

/-- Modelled from the spec: the Replacement denoted by one hunk: interval
from the old-side header range, new lines from the collected context and
`+` lines. -/
def closeHunkRepl (oldStart oldCount : Nat) (revNew : List Chars) : Replacement :=
  ⟨⟨oldStart, oldStart + oldCount - 1⟩, revNew.reverse⟩

/-- Modelled from the spec: close every open hunk and file section,
appending the finished FileEdit. -/
def gitCloseAll (st : GitState) : GitState :=
  match st.mode with
  | .idle => ⟨st.edits, .idle⟩
  | .awaitingPlus _ => ⟨st.edits, .idle⟩
  | .inFile p rs => ⟨st.edits ++ [⟨p, .edit, rs⟩], .idle⟩
  | .inHunk p rs os oc rev =>
    ⟨st.edits ++ [⟨p, .edit, rs ++ [closeHunkRepl os oc rev]⟩], .idle⟩

/-- Modelled from the spec: one `feed` transition of the Git state
machine.  A `---` line closes everything open and starts a new file
section; `+++` supplies the path of the new FileEdit; `@@` opens a hunk
(closing the previous one); context and `+` lines extend the new side of
the open hunk, `-` lines belong only to the old side; anything else
closes the open section (prose around a diff). -/
def gitFeed (st : GitState) (l : Line) : GitState :=
  match l with
  | .minusFile p => ⟨(gitCloseAll st).edits, .awaitingPlus p⟩
  | .plusFile p =>
    match st.mode with
    | .awaitingPlus _ => ⟨st.edits, .inFile p []⟩
    | _ => gitCloseAll st
  | .hunkHeader os oc _ _ =>
    match st.mode with
    | .inFile p rs => ⟨st.edits, .inHunk p rs os oc []⟩
    | .inHunk p rs os0 oc0 rev =>
      ⟨st.edits, .inHunk p (rs ++ [closeHunkRepl os0 oc0 rev]) os oc []⟩
    | _ => ⟨st.edits, .idle⟩
  | .context c =>
    match st.mode with
    | .inHunk p rs os oc rev => ⟨st.edits, .inHunk p rs os oc (c :: rev)⟩
    | _ => st
  | .plus c =>
    match st.mode with
    | .inHunk p rs os oc rev => ⟨st.edits, .inHunk p rs os oc (c :: rev)⟩
    | _ => st
  | .minus _ =>
    match st.mode with
    | .inHunk _ _ _ _ _ => st
    | _ => st
  | _ => gitCloseAll st

/-- Modelled from the spec: full (non-streaming) Git parse.  Hunks have
no end sentinel, so the end of the text closes the open sections and the
result is never partial. -/
def gitParse (t : Text) : ParseResult :=
  ⟨(gitCloseAll (t.foldl gitFeed ⟨[], .idle⟩)).edits, false⟩

/-- Modelled from the spec: canonical rendering of one Replacement as a
minimal hunk (old side given by the header range only, new side by `+`
lines). -/
def gitRenderRepl (r : Replacement) : Text :=
  Line.hunkHeader r.interval.start (r.interval.fin + 1 - r.interval.start)
      r.interval.start r.newLines.length ::
    r.newLines.map Line.plus

/-- Modelled from the spec: canonical Git rendering of one FileEdit. -/
def gitRender (fe : FileEdit) : Text :=
  Line.minusFile fe.path :: Line.plusFile fe.path ::
    fe.replacements.flatMap gitRenderRepl

/-- Modelled from the spec: `to_text` of the Git grammar. -/
def gitToText (es : List FileEdit) : Text := es.flatMap gitRender

/-! ### The grammar family and the translator (spec 4.2, 4.3) -/

/-- The closed set of grammars (spec 9: tagged variants behind one
capability interface). -/
inductive Grammar where
  | block
  | replacement
  | git
deriving DecidableEq, Repr

/-- Modelled from the spec: the `parse` capability of each grammar. -/
def parseG : Grammar → Text → ParseResult
  | .block => blockParse
  | .replacement => replParse
  | .git => gitParse

/-- Modelled from the spec: the `to_text` capability of each grammar. -/
def toTextG : Grammar → List FileEdit → Text
  | .block => blockToText
  | .replacement => replToText
  | .git => gitToText

/-- Validity of one Replacement inside a canonical edit set: a 1-indexed
non-inverted interval and body lines that are real lines (no embedded
newline). -/
def canonicalReplacement (r : Replacement) : Bool :=
  decide (1 ≤ r.interval.start ∧ r.interval.start ≤ r.interval.fin ∧
    ∀ l ∈ r.newLines, '\n' ∉ l)

/-- Validity of one FileEdit inside a canonical edit set (spec 4.1:
non-empty path; the grammars express the `edit` action with at least one
Replacement). -/
def canonicalFileEdit (fe : FileEdit) : Bool :=
  decide (fe.path ≠ "" ∧ fe.action = .edit ∧ fe.replacements ≠ []) &&
    fe.replacements.all canonicalReplacement

/-- Adjacent FileEdits carry distinct paths (needed by the Replacement
grammar, whose parse merges consecutive same-path segments). -/
def adjacentDistinct : List FileEdit → Bool
  | [] => true
  | [_] => true
  | a :: b :: rest => decide (a.path ≠ b.path) && adjacentDistinct (b :: rest)

/-- Modelled from the spec: which canonical edit sets a grammar can
express exactly (spec 4.2, 8, 9).  The Block grammar renders one block
per Replacement, each block yielding one FileEdit, so it expresses only
single-Replacement FileEdits; and its raw-text body cannot distinguish a
deletion (no lines) from one empty line — the spec-9 expressiveness gap —
so deletions are excluded.  The Replacement grammar merges consecutive
same-path segments, so adjacent FileEdits must have distinct paths. -/
def canExpress : Grammar → List FileEdit → Bool
  | .block, es =>
    es.all fun fe =>
      canonicalFileEdit fe &&
        decide (fe.replacements.length = 1 ∧ ∀ r ∈ fe.replacements, r.newLines ≠ [])
  | .replacement, es => es.all canonicalFileEdit && adjacentDistinct es
  | .git, es => es.all canonicalFileEdit

/-- Modelled from the spec (4.3): parse fully with the source grammar,
then render the resulting edits with the target grammar's `to_text`.
Pure: a function of its arguments alone. -/
def translate (t : Text) (source target : Grammar) : Text :=
  toTextG target (parseG source t).edits

/-! ### Git deviant-hunk tolerance (spec 4.2 policy, spec 8)

Modelled from the spec and the tests in
`tests/parser_tests/unified_diff_format_error_test.py`: a hunk whose
lines disagree with its `@@` header (or that has no header at all) is
resolved against the current file contents.  The hunk's old side (its
context and `-` lines, in order) must occur contiguously in the file;
the occurrence is replaced by the hunk's new side (context and `+`
lines).  If some hunk line has no recognizable prefix, or the old side
occurs nowhere in the file, that hunk alone is dropped and the result is
marked partial — which is what both repository tests observe: the file
stays byte-identical to its original content. -/

/-- One classified line of a hunk. -/
inductive DiffLine where
  | ctx (s : Chars)
  | del (s : Chars)
  | ins (s : Chars)
deriving DecidableEq, Repr

/-- Classify one physical line of a hunk by its prefix; a line with no
recognizable prefix has no classification. -/
def classifyLine : Line → Option DiffLine
  | .context s => some (.ctx s)
  | .minus s => some (.del s)
  | .plus s => some (.ins s)
  | _ => none

/-- Classify every line of a hunk; fails if any line is unclassifiable. -/
def classifyHunk : List Line → Option (List DiffLine)
  | [] => some []
  | l :: ls =>
    match classifyLine l, classifyHunk ls with
    | some d, some ds => some (d :: ds)
    | _, _ => none

/-- The old side of a hunk: its context and removed lines, in order. -/
def oldSide (dls : List DiffLine) : List Chars :=
  dls.filterMap fun
    | .ctx s => some s
    | .del s => some s
    | .ins _ => none

/-- The new side of a hunk: its context and added lines, in order. -/
def newSide (dls : List DiffLine) : List Chars :=
  dls.filterMap fun
    | .ctx s => some s
    | .del _ => none
    | .ins s => some s

/-- Only the removed (`-`) lines of a hunk, in order. -/
def minusOnly (dls : List DiffLine) : List Chars :=
  dls.filterMap fun
    | .ctx _ => none
    | .del s => some s
    | .ins _ => none

/-- Whether `pat` is an initial segment of `l`. -/
def listPrefixOf : List Chars → List Chars → Bool
  | [], _ => true
  | _ :: _, [] => false
  | p :: ps, x :: xs => decide (p = x) && listPrefixOf ps xs

/-- Index of the first contiguous occurrence of `pat` in `file`. -/
def findSubseq (pat : List Chars) : List Chars → Option Nat
  | [] => none
  | x :: rest =>
    if listPrefixOf pat (x :: rest) then some 0
    else (findSubseq pat rest).map (· + 1)

/-- Modelled from the spec: resolve one deviant hunk against the file.
Returns the new file contents, or `none` when the hunk must be dropped
(unclassifiable line, empty old side, or old side not found). -/
def applyHunkLines (file : List Chars) (hunk : List Line) : Option (List Chars) :=
  match classifyHunk hunk with
  | none => none
  | some dls =>
    if oldSide dls = [] then none
    else
      match findSubseq (oldSide dls) file with
      | none => none
      | some i =>
        some (file.take i ++ newSide dls ++ file.drop (i + (oldSide dls).length))

/-- Modelled from the spec: apply a list of hunks in order; a hunk that
cannot be resolved is dropped alone and the result is marked partial
(second component `true`). -/
def applyHunks (file : List Chars) : List (List Line) → List Chars × Bool
  | [] => (file, false)
  | h :: hs =>
    match applyHunkLines file h with
    | some f' => applyHunks f' hs
    | none => ((applyHunks file hs).1, true)

/-- The user's confirmation decision for a parsed change. -/
inductive UserDecision where
  | accept
  | decline
deriving DecidableEq, Repr

/-- Modelled from the spec (4.6): the file contents after the user's
decision — the applied contents on approval, the original contents on
denial. -/
def finalContent (orig applied : List Chars) : UserDecision → List Chars
  | .accept => applied
  | .decline => orig

/-! ### The session stream (`mentat/session_stream.py`)

`SessionStream` itself is in the checked tree; the `Broadcast` bus it
delegates to is not, so the bus is modelled from the spec (4.5):
`publish(channel, message)` appends to every current subscriber of that
channel without blocking, and `subscribe(channel)` yields the messages of
that channel published after the subscription.  `uuid4()` is modelled as
a fresh-id counter and `datetime.utcnow()` as a caller-supplied clock
value. -/

/-- Source of a stream message (`StreamMessageSource`). -/
inductive StreamMessageSource where
  | server
  | client
deriving DecidableEq, Repr

/-- The `StreamMessage` dataclass: `id`, `channel`, `source`, `data`,
`extra`, `created_at`. -/
structure StreamMessage where
  id : Nat
  channel : String
  source : StreamMessageSource
  data : String
  extra : List (String × String)
  createdAt : Nat
deriving DecidableEq, Repr

/-- Modelled from the spec: one subscription of the Broadcast bus — its
channel and the messages delivered to it so far, in delivery order. -/
structure Subscriber where
  channel : String
  queue : List StreamMessage
deriving DecidableEq, Repr

/-- State of a `SessionStream`: the message history (`self.messages`),
the fresh-id supply standing in for `uuid4`, and the modelled Broadcast
subscriptions. -/
structure SessionStream where
  messages : List StreamMessage
  nextId : Nat
  subscribers : List Subscriber
deriving DecidableEq, Repr

/-- `SessionStream.__init__`: empty history, fresh bus. -/
def SessionStream.init : SessionStream := ⟨[], 0, []⟩

/-- The message constructed by one `send` call from state `st`:
`StreamMessage(id=uuid4(), source=source, channel=channel, data=data,
created_at=datetime.utcnow(), extra=kwargs)`. -/
def mkStreamMessage (st : SessionStream) (data : String)
    (source : StreamMessageSource) (channel : String)
    (extra : List (String × String)) (now : Nat) : StreamMessage :=
  ⟨st.nextId, channel, source, data, extra, now⟩

/-- Modelled from the spec: `Broadcast.publish_nowait` — append the
message to the queue of every current subscriber of the channel and
return at once; no subscriber is awaited (fire-and-forget) and no queue
is otherwise touched. -/
def publish_nowait (subs : List Subscriber) (channel : String)
    (m : StreamMessage) : List Subscriber :=
  subs.map fun sub =>
    if sub.channel = channel then ⟨sub.channel, sub.queue ++ [m]⟩ else sub

/-- `SessionStream.send`: construct the message, append it to the
history, publish it fire-and-forget, and return it. -/
def send (st : SessionStream) (data : String) (source : StreamMessageSource)
    (channel : String) (extra : List (String × String)) (now : Nat) :
    SessionStream × StreamMessage :=
  let m := mkStreamMessage st data source channel extra now
  (⟨st.messages ++ [m], st.nextId + 1, publish_nowait st.subscribers channel m⟩, m)

/-- Modelled from the spec: `subscribe(channel)` registers a new
subscriber with an empty queue (it sees only later publishes); both
`recv` and `listen` begin this way. -/
def subscribeState (st : SessionStream) (channel : String) : SessionStream :=
  ⟨st.messages, st.nextId, st.subscribers ++ [⟨channel, []⟩]⟩

/-- The operations of `SessionStream`, as invoked by callers:
`send`, `recv`, `listen`, `start`, `stop`. -/
inductive StreamOp where
  | sendOp (data : String) (source : StreamMessageSource) (channel : String)
      (extra : List (String × String)) (now : Nat)
  | recvOp (channel : String)
  | listenOp (channel : String)
  | startOp
  | stopOp
deriving DecidableEq, Repr

/-- Effect of one `SessionStream` operation on the state.  `recv` and
`listen` subscribe and then only read; `start`/`stop` connect and
disconnect the bus and touch neither history nor subscriptions of the
model. -/
def stepOp (st : SessionStream) : StreamOp → SessionStream
  | .sendOp d s c e n => (send st d s c e n).1
  | .recvOp c => subscribeState st c
  | .listenOp c => subscribeState st c
  | .startOp => st
  | .stopOp => st

/-- Arguments of one `send` call. -/
structure SendArgs where
  data : String
  source : StreamMessageSource
  channel : String
  extra : List (String × String)
  now : Nat
deriving DecidableEq, Repr

/-- State after one `send` call with the given arguments. -/
def sendState (st : SessionStream) (a : SendArgs) : SessionStream :=
  (send st a.data a.source a.channel a.extra a.now).1

/-- Message produced by one `send` call with the given arguments. -/
def sendMsg (st : SessionStream) (a : SendArgs) : StreamMessage :=
  (send st a.data a.source a.channel a.extra a.now).2

/-- State after a sequence of `send` calls. -/
def runSends (st : SessionStream) : List SendArgs → SessionStream
  | [] => st
  | a :: as => runSends (sendState st a) as

/-- The messages produced by a sequence of `send` calls, in call order. -/
def sentMessages (st : SessionStream) : List SendArgs → List StreamMessage
  | [] => []
  | a :: as => sendMsg st a :: sentMessages (sendState st a) as

/-- Modelled from the spec: `recv(channel)` subscribes and returns the
first subsequently published message of that channel — here, the first
message of the channel among the sends that follow the subscription. -/
def recvResult (st : SessionStream) (channel : String)
    (as : List SendArgs) : Option StreamMessage :=
  (sentMessages st as).find? fun m => m.channel == channel

/-! ### The terminal client's input-request handler
(`mentat/terminal/client.py`)

`TerminalClient._handle_input_requests` receives a message on the
`input_request` channel, prompts the user, and either exits (reply `"q"`)
or sends the user's input as a CLIENT message on the derived channel
`f"input_request:{message.id}"`. -/

/-- Decimal digit character for a value below ten. -/
def digitChar : Nat → Char
  | 0 => '0'
  | 1 => '1'
  | 2 => '2'
  | 3 => '3'
  | 4 => '4'
  | 5 => '5'
  | 6 => '6'
  | 7 => '7'
  | 8 => '8'
  | 9 => '9'
  | _ => '*'

/-- Value of a decimal digit character (ten for non-digits). -/
def digitVal : Char → Nat
  | '0' => 0
  | '1' => 1
  | '2' => 2
  | '3' => 3
  | '4' => 4
  | '5' => 5
  | '6' => 6
  | '7' => 7
  | '8' => 8
  | '9' => 9
  | _ => 10

/-- Decimal digits of `n`, least significant first (`fuel ≥ n`). -/
def natToRevDigits : Nat → Nat → List Char
  | _, 0 => []
  | 0, _ + 1 => []
  | fuel + 1, n + 1 => digitChar ((n + 1) % 10) :: natToRevDigits fuel ((n + 1) / 10)

/-- Decimal rendering of a natural number (the interpolation of the id
into the derived channel name). -/
def natToStr (n : Nat) : String :=
  match n with
  | 0 => "0"
  | _ => ⟨(natToRevDigits n n).reverse⟩

/-- The derived reply channel `f"input_request:{id}"` of one input
request. -/
def derivedChannel (id : Nat) : String := "input_request:" ++ natToStr id

/-- The reply `send` of the input-request handler: the user's input, as a
CLIENT message on the derived channel, with no extra metadata. -/
def replyArgs (reqId : Nat) (userInput : String) (now : Nat) : SendArgs :=
  ⟨userInput, .client, derivedChannel reqId, [], now⟩

/-- One iteration of `TerminalClient._handle_input_requests` after the
prompt returns `userInput` for the request with id `reqId`: on `"q"` set
the exit flag and return without sending; otherwise send the reply on the
derived channel.  Returns the exit flag and the send performed, if any. -/
def handleInputRequest (reqId : Nat) (userInput : String) (now : Nat) :
    Bool × Option SendArgs :=
  if userInput = "q" then (true, none)
  else (false, some (replyArgs reqId userInput now))

/-! ### The loading bar (`mentat/terminal/loading.py`) -/

/-- State of the tqdm progress bar held by `LoadingHandler`: accumulated
count `n`, `total`, and whether `close()` has been called. -/
structure PBar where
  n : Nat
  total : Nat
  closed : Bool
deriving DecidableEq, Repr

/-- State of a `LoadingHandler`: the optional progress bar. -/
structure LoadingHandler where
  pbar : Option PBar
deriving DecidableEq, Repr

/-- `LoadingHandler.__init__`: no bar yet. -/
def LoadingHandler.init : LoadingHandler := ⟨none⟩

/-- `LoadingHandler.update`, reduced to the fields the bar state depends
on: the optional `extra["progress"]` value of the message.  A missing bar
is created with `total=100`; an increment is clamped to
`total - n` (`min(message.extra["progress"], self.pbar.total -
self.pbar.n)`); `tqdm.update` on a closed bar changes nothing; the bar is
closed when the count reaches the total. -/
def LoadingHandler.update (h : LoadingHandler) (progress : Option Nat) :
    LoadingHandler :=
  let pb := h.pbar.getD ⟨0, 100, false⟩
  match progress with
  | none => ⟨some pb⟩
  | some p =>
    let inc := min p (pb.total - pb.n)
    let n' := if pb.closed then pb.n else pb.n + inc
    ⟨some ⟨n', pb.total, pb.closed || decide (n' = pb.total)⟩⟩

/-- `LoadingHandler.terminate`: close and drop the bar. -/
def LoadingHandler.terminate (_ : LoadingHandler) : LoadingHandler := ⟨none⟩

/-- State after a sequence of `update` calls. -/
def runUpdates (h : LoadingHandler) (ps : List (Option Nat)) : LoadingHandler :=
  ps.foldl LoadingHandler.update h

/-! ### Interval literals (`expand_paths` and `parse_intervals`)

`expand_paths` is in the checked tree (`mentat/terminal/client.py`); the
`parse_intervals` it calls lives in `mentat/code_file.py`, which is not,
so it is modelled from the spec (6): `path[:range[,range]*]`,
`range = N | N-M`, 1-indexed inclusive; malformed ranges are rejected. -/

/-- Parse a non-empty all-digit character list as a natural number. -/
def parseNatChars : Chars → Option Nat
  | [] => none
  | cs =>
    cs.foldl (fun acc c =>
      match acc with
      | none => none
      | some v => if digitVal c < 10 then some (v * 10 + digitVal c) else none)
      (some 0)

/-- Modelled from the spec: parse one range literal, `N` or `N-M`,
1-indexed inclusive; a malformed or inverted range is rejected. -/
def parseOneInterval (cs : Chars) : Option Interval :=
  match splitOnChar '-' cs with
  | [n] =>
    match parseNatChars n with
    | some v => if 1 ≤ v then some ⟨v, v⟩ else none
    | none => none
  | [a, b] =>
    match parseNatChars a, parseNatChars b with
    | some va, some vb => if 1 ≤ va ∧ va ≤ vb then some ⟨va, vb⟩ else none
    | _, _ => none
  | _ => none

/-- Modelled from the spec: `parse_intervals` — the comma-separated range
list after the colon; any malformed range rejects the whole literal. -/
def parse_intervals (s : String) : Option (List Interval) :=
  (splitOnChar ',' s.data).foldr (fun cs acc =>
    match parseOneInterval cs, acc with
    | some i, some is => some (i :: is)
    | _, _ => none) (some [])

/-- Split a path literal at its last colon, as `expand_paths` does with
`path.rsplit(":", 1)`: the part before the last separator and, when a
separator exists, the part after it. -/
def lastSplitChar (sep : Char) (cs : Chars) : Chars × Option Chars :=
  match splitOnChar sep cs with
  | [] => (cs, none)
  | [x] => (x, none)
  | x :: xs =>
    match (x :: xs).reverse with
    | [] => (cs, none)
    | last :: revInit => (joinWithChar sep revInit.reverse, some last)

/-- The `rsplit(":", 1)` of `expand_paths` on a path literal. -/
def lastSplitColon (s : String) : String × Option String :=
  match lastSplitChar ':' s.data with
  | (p, none) => (⟨p⟩, none)
  | (p, some r) => (⟨p⟩, some ⟨r⟩)

/-- Value of a least-significant-first digit list (used to show that the
decimal rendering of an id is injective). -/
def revDigitsVal : List Char → Nat
  | [] => 0
  | c :: cs => digitVal c + 10 * revDigitsVal cs

/-- Invariant of the loading bar: the accumulated count never exceeds the
total of 100, and the bar is closed exactly when the count reaches the
total. -/
def pbarInv : Option PBar → Prop
  | none => True
  | some pb => pb.total = 100 ∧ pb.n ≤ pb.total ∧ (pb.closed = true ↔ pb.n = pb.total)

/-! ### Concrete inputs from the repository tests -/

/-- The four lines of the temporary file of
`tests/parser_tests/unified_diff_format_error_test.py`. -/
def tmpFileLines : List Chars :=
  ["# This is".data, "# a temporary file".data, "# with".data, "# 4 lines".data]

/-- The deviant hunk of `test_not_matching`: its context line does not
occur in the file, though its `-` lines do. -/
def notMatchingHunk : List Line :=
  [.context "# Not matching".data, .minus "# a temporary file".data,
    .minus "# with".data, .plus "# your captain speaking".data,
    .context "# 4 lines".data]

/-- The same hunk with the correct context line, which aligns with the
file. -/
def alignedHunk : List Line :=
  [.context "# This is".data, .minus "# a temporary file".data,
    .minus "# with".data, .plus "# your captain speaking".data,
    .context "# 4 lines".data]

/-- The classified lines of `alignedHunk`. -/
def alignedDiff : List DiffLine :=
  [.ctx "# This is".data, .del "# a temporary file".data,
    .del "# with".data, .ins "# your captain speaking".data,
    .ctx "# 4 lines".data]

/-- A sample canonical edit set expressible in both the Replacement and
the Git grammar: two replacements in one file (one of them a deletion)
and one replacement in another. -/
def sampleEditSet : List FileEdit :=
  [⟨"a.py", .edit, [⟨⟨1, 2⟩, ["x".data, "y".data]⟩, ⟨⟨5, 5⟩, []⟩]⟩,
    ⟨"b.py", .edit, [⟨⟨3, 4⟩, []⟩]⟩]

/-! ## Lemmas and theorems -/

theorem splitOnChar_ne_nil (sep : Char) (cs : Chars) : splitOnChar sep cs ≠ [] := by
  induction cs with
  | nil => simp [splitOnChar]
  | cons c cs ih =>
    simp only [splitOnChar]
    cases h : splitOnChar sep cs with
    | nil => simp
    | cons l ls =>
      by_cases hc : c = sep <;> simp [hc]

theorem splitOnChar_append (sep : Char) (l cs : Chars) (m : Chars) (ms : List Chars)
    (hl : sep ∉ l) (h : splitOnChar sep cs = m :: ms) :
    splitOnChar sep (l ++ cs) = (l ++ m) :: ms := by
  induction l with
  | nil => simpa using h
  | cons c l ih =>
    have hc : ¬ c = sep := fun hcs => hl (hcs ▸ List.mem_cons_self c l)
    have hl' : sep ∉ l := fun hmem => hl (List.mem_cons_of_mem c hmem)
    simp only [List.cons_append, splitOnChar, List.append_eq, ih hl', hc, if_false]

theorem splitOnChar_joinWithChar (sep : Char) (l : Chars) (ls : List Chars)
    (h : ∀ x ∈ l :: ls, sep ∉ x) :
    splitOnChar sep (joinWithChar sep (l :: ls)) = l :: ls := by
  induction ls generalizing l with
  | nil =>
    have : splitOnChar sep (l ++ []) = (l ++ []) :: [] :=
      splitOnChar_append sep l [] [] [] (h l (List.mem_cons_self l [])) rfl
    simpa [joinWithChar] using this
  | cons l2 ls ih =>
    have h2 : ∀ x ∈ l2 :: ls, sep ∉ x := fun x hx => h x (List.mem_cons_of_mem l hx)
    have hrec : splitOnChar sep (joinWithChar sep (l2 :: ls)) = l2 :: ls := ih l2 h2
    have hsep : splitOnChar sep (sep :: joinWithChar sep (l2 :: ls)) =
        [] :: l2 :: ls := by
      simp [splitOnChar, hrec]
    have := splitOnChar_append sep l (sep :: joinWithChar sep (l2 :: ls)) [] (l2 :: ls)
      (h l (List.mem_cons_self l (l2 :: ls))) hsep
    simpa [joinWithChar] using this

theorem splitOnNl_joinNl (l : Chars) (ls : List Chars)
    (h : ∀ x ∈ l :: ls, '\n' ∉ x) :
    splitOnNl (joinNl (l :: ls)) = l :: ls :=
  splitOnChar_joinWithChar '\n' l ls h

theorem blockFeed_body (edits : List FileEdit) (p : String) (s f : Nat)
    (acc : List Chars) (ls : List Chars) (rest : Text) :
    List.foldl blockFeed ⟨edits, .inBody p s f acc⟩ (ls.map Line.content ++ rest) =
    List.foldl blockFeed ⟨edits, .inBody p s f (ls.reverse ++ acc)⟩ rest := by
  induction ls generalizing acc with
  | nil => simp
  | cons c ls ih =>
    have step : blockFeed ⟨edits, .inBody p s f acc⟩ (Line.content c) =
        ⟨edits, .inBody p s f (c :: acc)⟩ := rfl
    simp only [List.map_cons, List.cons_append, List.foldl_cons, step, ih,
      List.reverse_cons, List.append_assoc, List.singleton_append, List.nil_append]

theorem blockFold_toText : ∀ (es : List FileEdit) (edits : List FileEdit),
    canExpress .block es = true →
    List.foldl blockFeed ⟨edits, .idle⟩ (blockToText es) = ⟨edits ++ es, .idle⟩ := by
  intro es
  induction es with
  | nil => intro edits _; simp [blockToText]
  | cons fe rest ih =>
    intro edits hc
    simp only [canExpress, List.all_cons, Bool.and_eq_true, decide_eq_true_eq] at hc
    obtain ⟨⟨hfe, hone, hne⟩, hrest⟩ := hc
    obtain ⟨r, hr⟩ := List.length_eq_one.mp hone
    have hcr : canonicalReplacement r = true := by
      simp only [canonicalFileEdit, Bool.and_eq_true, List.all_eq_true] at hfe
      exact hfe.2 r (hr ▸ List.mem_cons_self r [])
    have hact : fe.action = .edit := by
      simp only [canonicalFileEdit, Bool.and_eq_true, decide_eq_true_eq] at hfe
      exact hfe.1.2.1
    have hnl : r.newLines ≠ [] := hne r (hr ▸ List.mem_cons_self r [])
    have hnonl : ∀ x ∈ r.newLines, '\n' ∉ x := by
      simp only [canonicalReplacement, decide_eq_true_eq] at hcr
      exact hcr.2.2
    have hsplit : splitOnNl (joinNl r.newLines) = r.newLines := by
      cases hls : r.newLines with
      | nil => exact absurd hls hnl
      | cons l ls => exact splitOnNl_joinNl l ls (hls ▸ hnonl)
    have hclose : closeBlock fe.path r.interval.start r.interval.fin
        r.newLines.reverse = fe := by
      simp only [closeBlock, List.reverse_reverse, hsplit]
      cases fe with
      | mk path action repls =>
        simp only at hr hact
        simp [hr, hact]
    have hrender : blockToText (fe :: rest) =
        Line.blockHeader fe.path r.interval.start r.interval.fin ::
          Line.blockBody :: (r.newLines.map Line.content ++ [Line.blockEnd]) ++
            blockToText rest := by
      simp [blockToText, blockRender, hr]
    rw [hrender]
    have s1 : blockFeed ⟨edits, .idle⟩
        (Line.blockHeader fe.path r.interval.start r.interval.fin) =
        ⟨edits, .inHeader fe.path r.interval.start r.interval.fin⟩ := rfl
    have s2 : blockFeed ⟨edits, .inHeader fe.path r.interval.start r.interval.fin⟩
        Line.blockBody = ⟨edits, .inBody fe.path r.interval.start r.interval.fin []⟩ := rfl
    simp only [List.cons_append, List.foldl_cons, s1, s2, List.append_assoc,
      List.singleton_append]
    simp only [List.nil_append]
    rw [blockFeed_body edits fe.path r.interval.start r.interval.fin []]
    have s3 : blockFeed ⟨edits, .inBody fe.path r.interval.start r.interval.fin
        r.newLines.reverse⟩ Line.blockEnd =
        ⟨edits ++ [closeBlock fe.path r.interval.start r.interval.fin
          r.newLines.reverse], .idle⟩ := rfl
    simp only [List.append_nil]
    rw [List.foldl_cons, s3, hclose]
    have hrest' : canExpress .block rest = true := hrest
    rw [ih (edits ++ [fe]) hrest']
    simp

theorem blockParse_toText (es : List FileEdit) (hc : canExpress .block es = true) :
    blockParse (blockToText es) = ⟨es, false⟩ := by
  simp [blockParse, blockFold_toText es [] hc]

theorem closeRepl_mode (st : ReplState) : (closeRepl st).mode = .idle := by
  cases h : st.mode <;> simp [closeRepl, h]

theorem closeRepl_eta (st : ReplState) :
    closeRepl st = ⟨(closeRepl st).pairs, .idle⟩ := by
  have h := closeRepl_mode st
  cases hc : closeRepl st with
  | mk pairs mode => rw [hc] at h; simp at h; simp [h]

theorem replFeed_body (pairs : List (String × Replacement)) (p : String)
    (s f : Nat) (acc : List Chars) (ls : List Chars) (rest : Text) :
    List.foldl replFeed ⟨pairs, .inBody p s f acc⟩ (ls.map Line.content ++ rest) =
    List.foldl replFeed ⟨pairs, .inBody p s f (ls.reverse ++ acc)⟩ rest := by
  induction ls generalizing acc with
  | nil => simp
  | cons c ls ih =>
    have step : replFeed ⟨pairs, .inBody p s f acc⟩ (Line.content c) =
        ⟨pairs, .inBody p s f (c :: acc)⟩ := rfl
    simp only [List.map_cons, List.cons_append, List.foldl_cons, step, ih,
      List.reverse_cons, List.append_assoc, List.singleton_append, List.nil_append]

theorem replFold_pairs : ∀ (pl : List (String × Replacement)) (st : ReplState),
    closeRepl (List.foldl replFeed st (pl.flatMap replRenderPair)) =
    ⟨(closeRepl st).pairs ++ pl, .idle⟩ := by
  intro pl
  induction pl with
  | nil => intro st; simpa using closeRepl_eta st
  | cons pr rest ih =>
    intro st
    obtain ⟨p, r⟩ := pr
    have hdr : replFeed st (Line.replHeader p r.interval.start r.interval.fin) =
        ⟨(closeRepl st).pairs, .inBody p r.interval.start r.interval.fin []⟩ := rfl
    simp only [List.flatMap_cons, replRenderPair, List.cons_append, List.foldl_cons,
      List.append_assoc, hdr]
    rw [replFeed_body (closeRepl st).pairs p r.interval.start r.interval.fin []]
    rw [ih]
    have hclose : closeRepl ⟨(closeRepl st).pairs,
        .inBody p r.interval.start r.interval.fin (r.newLines.reverse ++ [])⟩ =
        ⟨(closeRepl st).pairs ++ [(p, r)], .idle⟩ := by
      simp [closeRepl]
    rw [hclose]
    simp

theorem groupByPath_run : ∀ (rs : List Replacement) (p : String)
    (tail : List (String × Replacement)),
    rs ≠ [] →
    (groupByPath tail = [] ∨
      ∀ fe fes, groupByPath tail = fe :: fes → fe.path ≠ p) →
    groupByPath (rs.map ((p, ·)) ++ tail) = ⟨p, .edit, rs⟩ :: groupByPath tail := by
  intro rs
  induction rs with
  | nil => intro p tail h _; exact absurd rfl h
  | cons r rs ih =>
    intro p tail _ htail
    cases hrs : rs with
    | nil =>
      simp only [List.map_cons, List.map_nil, List.nil_append, List.cons_append,
        groupByPath]
      cases hg : groupByPath tail with
      | nil => simp [hg]
      | cons fe fes =>
        rcases htail with h | h
        · rw [hg] at h; exact absurd h (List.cons_ne_nil fe fes)
        · have hne : fe.path ≠ p := h fe fes hg
          simp [hg, hne]
    | cons r2 rs2 =>
      have hner : (r2 :: rs2 : List Replacement) ≠ [] := List.cons_ne_nil r2 rs2
      have hthis := ih p tail (hrs ▸ hner) htail
      rw [hrs] at hthis
      have hsplit : (r :: r2 :: rs2 : List Replacement).map ((p, ·)) ++ tail =
          (p, r) :: ((r2 :: rs2 : List Replacement).map ((p, ·)) ++ tail) := by
        simp
      rw [hsplit]
      have key : groupByPath ((p, r) ::
          ((r2 :: rs2 : List Replacement).map ((p, ·)) ++ tail)) =
          match groupByPath ((r2 :: rs2 : List Replacement).map ((p, ·)) ++ tail) with
          | [] => [⟨p, .edit, [r]⟩]
          | fe :: fes =>
            if fe.path = p then ⟨p, .edit, r :: fe.replacements⟩ :: fes
            else ⟨p, .edit, [r]⟩ :: fe :: fes := rfl
      rw [key, hthis]
      simp

theorem groupByPath_pairsOf : ∀ (es : List FileEdit),
    (∀ fe ∈ es, fe.replacements ≠ [] ∧ fe.action = .edit) →
    adjacentDistinct es = true →
    groupByPath (pairsOf es) = es := by
  intro es
  induction es with
  | nil => intro _ _; rfl
  | cons fe rest ih =>
    intro hall hadj
    have hfe := hall fe (List.mem_cons_self fe rest)
    have hrest : ∀ x ∈ rest, x.replacements ≠ [] ∧ x.action = .edit :=
      fun x hx => hall x (List.mem_cons_of_mem fe hx)
    have hadjrest : adjacentDistinct rest = true := by
      cases rest with
      | nil => rfl
      | cons b bs =>
        simp only [adjacentDistinct, Bool.and_eq_true] at hadj
        exact hadj.2
    have hgrest : groupByPath (pairsOf rest) = rest := ih hrest hadjrest
    have hcond : groupByPath (pairsOf rest) = [] ∨
        ∀ g gs, groupByPath (pairsOf rest) = g :: gs → g.path ≠ fe.path := by
      rw [hgrest]
      cases hr : rest with
      | nil => left; rfl
      | cons b bs =>
        right
        intro g gs hg
        injection hg with h1 _
        rw [hr] at hadj
        simp only [adjacentDistinct, Bool.and_eq_true, decide_eq_true_eq] at hadj
        exact h1 ▸ Ne.symm hadj.1
    have hrun := groupByPath_run fe.replacements fe.path (pairsOf rest) hfe.1 hcond
    have hpairs : pairsOf (fe :: rest) =
        fe.replacements.map ((fe.path, ·)) ++ pairsOf rest := by
      simp [pairsOf]
    rw [hpairs, hrun, hgrest]
    congr 1
    cases fe with
    | mk path action repls => simp only at hfe; simp [hfe.2]

theorem replParse_toText (es : List FileEdit)
    (hc : canExpress .replacement es = true) :
    replParse (replToText es) = ⟨es, false⟩ := by
  simp only [canExpress, Bool.and_eq_true, List.all_eq_true] at hc
  have hinit : closeRepl (⟨[], .idle⟩ : ReplState) = ⟨[], .idle⟩ := rfl
  have hfold := replFold_pairs (pairsOf es) ⟨[], .idle⟩
  have hprops : ∀ fe ∈ es, fe.replacements ≠ [] ∧ fe.action = .edit := by
    intro fe hfe
    have := hc.1 fe hfe
    simp only [canonicalFileEdit, Bool.and_eq_true, decide_eq_true_eq] at this
    exact ⟨this.1.2.2, this.1.2.1⟩
  simp only [replParse, replToText, hfold, hinit]
  simp [groupByPath_pairsOf es hprops hc.2]

theorem gitCloseAll_mode (st : GitState) : (gitCloseAll st).mode = .idle := by
  cases h : st.mode <;> simp [gitCloseAll, h]

theorem gitCloseAll_eta (st : GitState) :
    gitCloseAll st = ⟨(gitCloseAll st).edits, .idle⟩ := by
  have h := gitCloseAll_mode st
  cases hc : gitCloseAll st with
  | mk edits mode => rw [hc] at h; simp at h; simp [h]

theorem gitFeed_hunkBody (edits : List FileEdit) (p : String)
    (rs : List Replacement) (os oc : Nat) (rev : List Chars)
    (ls : List Chars) (rest : Text) :
    List.foldl gitFeed ⟨edits, .inHunk p rs os oc rev⟩ (ls.map Line.plus ++ rest) =
    List.foldl gitFeed ⟨edits, .inHunk p rs os oc (ls.reverse ++ rev)⟩ rest := by
  induction ls generalizing rev with
  | nil => simp
  | cons c ls ih =>
    have step : gitFeed ⟨edits, .inHunk p rs os oc rev⟩ (Line.plus c) =
        ⟨edits, .inHunk p rs os oc (c :: rev)⟩ := rfl
    simp only [List.map_cons, List.cons_append, List.foldl_cons, step, ih,
      List.reverse_cons, List.append_assoc, List.singleton_append, List.nil_append]

theorem closeHunkRepl_canonical (r : Replacement)
    (hr : canonicalReplacement r = true) :
    closeHunkRepl r.interval.start (r.interval.fin + 1 - r.interval.start)
      r.newLines.reverse = r := by
  simp only [canonicalReplacement, decide_eq_true_eq] at hr
  have hse : r.interval.start + (r.interval.fin + 1 - r.interval.start) - 1 =
      r.interval.fin := by omega
  simp only [closeHunkRepl, List.reverse_reverse, hse]

theorem gitHunks_fold_inHunk : ∀ (rl : List Replacement) (edits : List FileEdit)
    (p : String) (rs : List Replacement) (os oc : Nat) (rev : List Chars),
    (∀ r ∈ rl, canonicalReplacement r = true) →
    gitCloseAll (List.foldl gitFeed ⟨edits, .inHunk p rs os oc rev⟩
      (rl.flatMap gitRenderRepl)) =
    ⟨edits ++ [⟨p, .edit, (rs ++ [closeHunkRepl os oc rev]) ++ rl⟩], .idle⟩ := by
  intro rl
  induction rl with
  | nil => intro edits p rs os oc rev _; simp [gitCloseAll]
  | cons r rl ih =>
    intro edits p rs os oc rev hcan
    have hr : canonicalReplacement r = true := hcan r (List.mem_cons_self r rl)
    have hrl : ∀ x ∈ rl, canonicalReplacement x = true :=
      fun x hx => hcan x (List.mem_cons_of_mem r hx)
    have hhdr : gitFeed ⟨edits, .inHunk p rs os oc rev⟩
        (Line.hunkHeader r.interval.start (r.interval.fin + 1 - r.interval.start)
          r.interval.start r.newLines.length) =
        ⟨edits, .inHunk p (rs ++ [closeHunkRepl os oc rev]) r.interval.start
          (r.interval.fin + 1 - r.interval.start) []⟩ := rfl
    simp only [List.flatMap_cons, gitRenderRepl, List.cons_append, List.foldl_cons,
      List.append_assoc, hhdr]
    rw [gitFeed_hunkBody edits p (rs ++ [closeHunkRepl os oc rev]) r.interval.start
      (r.interval.fin + 1 - r.interval.start) []]
    rw [ih (edits) p (rs ++ [closeHunkRepl os oc rev]) r.interval.start
      (r.interval.fin + 1 - r.interval.start) (r.newLines.reverse ++ []) hrl]
    have hcr : closeHunkRepl r.interval.start
        (r.interval.fin + 1 - r.interval.start) (r.newLines.reverse ++ []) = r := by
      rw [List.append_nil]
      exact closeHunkRepl_canonical r hr
    rw [hcr]
    simp

theorem gitHunks_fold_inFile (rl : List Replacement) (edits : List FileEdit)
    (p : String) (rs : List Replacement)
    (hcan : ∀ r ∈ rl, canonicalReplacement r = true) :
    gitCloseAll (List.foldl gitFeed ⟨edits, .inFile p rs⟩
      (rl.flatMap gitRenderRepl)) =
    ⟨edits ++ [⟨p, .edit, rs ++ rl⟩], .idle⟩ := by
  cases rl with
  | nil => simp [gitCloseAll]
  | cons r rl =>
    have hr : canonicalReplacement r = true := hcan r (List.mem_cons_self r rl)
    have hrl : ∀ x ∈ rl, canonicalReplacement x = true :=
      fun x hx => hcan x (List.mem_cons_of_mem r hx)
    have hhdr : gitFeed ⟨edits, .inFile p rs⟩
        (Line.hunkHeader r.interval.start (r.interval.fin + 1 - r.interval.start)
          r.interval.start r.newLines.length) =
        ⟨edits, .inHunk p rs r.interval.start
          (r.interval.fin + 1 - r.interval.start) []⟩ := rfl
    simp only [List.flatMap_cons, gitRenderRepl, List.cons_append, List.foldl_cons,
      List.append_assoc, hhdr]
    rw [gitFeed_hunkBody edits p rs r.interval.start
      (r.interval.fin + 1 - r.interval.start) []]
    rw [gitHunks_fold_inHunk rl edits p rs r.interval.start
      (r.interval.fin + 1 - r.interval.start) (r.newLines.reverse ++ []) hrl]
    have hcr : closeHunkRepl r.interval.start
        (r.interval.fin + 1 - r.interval.start) (r.newLines.reverse ++ []) = r := by
      rw [List.append_nil]
      exact closeHunkRepl_canonical r hr
    rw [hcr]
    simp

theorem gitText_fold : ∀ (es : List FileEdit) (st : GitState),
    (∀ fe ∈ es, canonicalFileEdit fe = true) →
    gitCloseAll (List.foldl gitFeed st (gitToText es)) =
    ⟨(gitCloseAll st).edits ++ es, .idle⟩ := by
  intro es
  induction es with
  | nil =>
    intro st _
    simpa [gitToText] using gitCloseAll_eta st
  | cons fe rest ih =>
    intro st hall
    have hfe := hall fe (List.mem_cons_self fe rest)
    have hrest : ∀ x ∈ rest, canonicalFileEdit x = true :=
      fun x hx => hall x (List.mem_cons_of_mem fe hx)
    have hact : fe.action = .edit ∧ ∀ r ∈ fe.replacements, canonicalReplacement r = true := by
      simp only [canonicalFileEdit, Bool.and_eq_true, decide_eq_true_eq,
        List.all_eq_true] at hfe
      exact ⟨hfe.1.2.1, hfe.2⟩
    have hminus : gitFeed st (Line.minusFile fe.path) =
        ⟨(gitCloseAll st).edits, .awaitingPlus fe.path⟩ := rfl
    have hplus : gitFeed ⟨(gitCloseAll st).edits, .awaitingPlus fe.path⟩
        (Line.plusFile fe.path) = ⟨(gitCloseAll st).edits, .inFile fe.path []⟩ := rfl
    simp only [gitToText, List.flatMap_cons, gitRender, List.cons_append,
      List.foldl_cons, hminus, hplus, List.append_assoc]
    rw [List.foldl_append]
    have hih := ih (List.foldl gitFeed ⟨(gitCloseAll st).edits, .inFile fe.path []⟩
      (fe.replacements.flatMap gitRenderRepl)) hrest
    simp only [gitToText] at hih
    rw [hih]
    have hS := gitHunks_fold_inFile fe.replacements (gitCloseAll st).edits
      fe.path [] hact.2
    rw [hS]
    have hfe' : (⟨fe.path, .edit, [] ++ fe.replacements⟩ : FileEdit) = fe := by
      cases fe with
      | mk path action repls =>
        simp only at hact
        simp [hact.1]
    simp only [hfe']
    simp

theorem gitParse_toText (es : List FileEdit) (hc : canExpress .git es = true) :
    gitParse (gitToText es) = ⟨es, false⟩ := by
  simp only [canExpress, List.all_eq_true] at hc
  have := gitText_fold es ⟨[], .idle⟩ hc
  simp only [gitParse, this]
  rfl

theorem roundtrip_toText (g : Grammar) (es : List FileEdit)
    (hc : canExpress g es = true) : parseG g (toTextG g es) = ⟨es, false⟩ := by
  cases g with
  | block => exact blockParse_toText es hc
  | replacement => exact replParse_toText es hc
  | git => exact gitParse_toText es hc

theorem listPrefixOf_iff : ∀ (pat l : List Chars),
    listPrefixOf pat l = true ↔ ∃ B, l = pat ++ B := by
  intro pat
  induction pat with
  | nil => intro l; simp [listPrefixOf]
  | cons p ps ih =>
    intro l
    cases l with
    | nil => simp [listPrefixOf]
    | cons x xs =>
      simp only [listPrefixOf, Bool.and_eq_true, decide_eq_true_eq, ih,
        List.cons_append, List.cons.injEq]
      constructor
      · rintro ⟨hpx, B, hB⟩; exact ⟨B, hpx.symm, hB⟩
      · rintro ⟨B, hpx, hB⟩; exact ⟨hpx.symm, B, hB⟩

theorem findSubseq_decomp : ∀ (file : List Chars) (pat : List Chars) (i : Nat),
    findSubseq pat file = some i →
    ∃ A B, file = A ++ pat ++ B ∧ A.length = i := by
  intro file
  induction file with
  | nil => intro pat i h; simp [findSubseq] at h
  | cons x rest ih =>
    intro pat i h
    simp only [findSubseq] at h
    by_cases hp : listPrefixOf pat (x :: rest) = true
    · rw [if_pos hp] at h
      obtain ⟨B, hB⟩ := (listPrefixOf_iff pat (x :: rest)).mp hp
      cases h
      exact ⟨[], B, by simpa using hB, rfl⟩
    · rw [if_neg hp] at h
      simp only [Option.map_eq_some'] at h
      obtain ⟨j, hj, hij⟩ := h
      obtain ⟨A, B, hAB, hA⟩ := ih pat j hj
      exact ⟨x :: A, B, by simp [hAB], by simp [hA, hij]⟩

theorem applyHunkLines_aligned (file : List Chars) (hunk : List Line)
    (dls : List DiffLine) (i : Nat)
    (hcl : classifyHunk hunk = some dls)
    (hno : oldSide dls ≠ [])
    (hfind : findSubseq (oldSide dls) file = some i) :
    ∃ A B, file = A ++ oldSide dls ++ B ∧ A.length = i ∧
      applyHunkLines file hunk = some (A ++ newSide dls ++ B) := by
  obtain ⟨A, B, hAB, hA⟩ := findSubseq_decomp file (oldSide dls) i hfind
  refine ⟨A, B, hAB, hA, ?_⟩
  simp only [applyHunkLines, hcl, if_neg hno, hfind]
  congr 1
  have htake : file.take i = A := by
    rw [hAB, ← hA, List.append_assoc, List.take_left]
  have hdrop : file.drop (i + (oldSide dls).length) = B := by
    rw [hAB, ← hA]
    rw [show A.length + (oldSide dls).length = (A ++ oldSide dls).length by simp]
    exact List.drop_left _ _
  rw [htake, hdrop]

theorem digitVal_digitChar (d : Nat) (h : d < 10) :
    digitVal (digitChar d) = d := by
  interval_cases d <;> rfl

theorem revDigitsVal_natToRevDigits : ∀ (fuel n : Nat), n ≤ fuel →
    revDigitsVal (natToRevDigits fuel n) = n := by
  intro fuel
  induction fuel with
  | zero =>
    intro n hn
    interval_cases n
    rfl
  | succ fuel ih =>
    intro n hn
    cases n with
    | zero => rfl
    | succ m =>
      have hd : (m + 1) / 10 ≤ fuel := by omega
      simp only [natToRevDigits, revDigitsVal, ih _ hd,
        digitVal_digitChar ((m + 1) % 10) (Nat.mod_lt _ (by omega))]
      omega

theorem natToRevDigits_inj (a b : Nat)
    (h : natToRevDigits a a = natToRevDigits b b) : a = b := by
  have ha := revDigitsVal_natToRevDigits a a (Nat.le_refl a)
  have hb := revDigitsVal_natToRevDigits b b (Nat.le_refl b)
  rw [← ha, ← hb, h]

theorem natToStr_inj (a b : Nat) (h : natToStr a = natToStr b) : a = b := by
  cases a with
  | zero =>
    cases b with
    | zero => rfl
    | succ m =>
      exfalso
      have hdata : ("0" : String).data =
          ((natToRevDigits (m + 1) (m + 1)).reverse) := congrArg String.data h
      have h0 : ("0" : String).data = ['0'] := rfl
      have hrev : (natToRevDigits (m + 1) (m + 1)).reverse = ['0'] := by
        rw [← hdata, h0]
      have hd : natToRevDigits (m + 1) (m + 1) = ['0'] := by
        have := congrArg List.reverse hrev
        simpa using this
      have := revDigitsVal_natToRevDigits (m + 1) (m + 1) (Nat.le_refl _)
      rw [hd] at this
      simp [revDigitsVal, digitVal] at this
  | succ n =>
    cases b with
    | zero =>
      exfalso
      have hdata : ((natToRevDigits (n + 1) (n + 1)).reverse) =
          ("0" : String).data := congrArg String.data h
      have h0 : ("0" : String).data = ['0'] := rfl
      have hd : natToRevDigits (n + 1) (n + 1) = ['0'] := by
        have := congrArg List.reverse (hdata.trans h0)
        simpa using this
      have := revDigitsVal_natToRevDigits (n + 1) (n + 1) (Nat.le_refl _)
      rw [hd] at this
      simp [revDigitsVal, digitVal] at this
    | succ m =>
      have hdata : ((natToRevDigits (n + 1) (n + 1)).reverse) =
          ((natToRevDigits (m + 1) (m + 1)).reverse) := congrArg String.data h
      have hd : natToRevDigits (n + 1) (n + 1) = natToRevDigits (m + 1) (m + 1) := by
        have := congrArg List.reverse hdata
        simpa using this
      exact natToRevDigits_inj (n + 1) (m + 1) hd

theorem derivedChannel_inj (a b : Nat) (h : derivedChannel a = derivedChannel b) :
    a = b := by
  have hdata := congrArg String.data h
  simp only [derivedChannel, String.data_append] at hdata
  have := List.append_cancel_left hdata
  apply natToStr_inj
  cases hsa : natToStr a with
  | mk da =>
    cases hsb : natToStr b with
    | mk db =>
      rw [hsa, hsb] at this
      simp only at this
      rw [this]

theorem runSends_getElem : ∀ (as : List SendArgs) (st : SessionStream) (i : Nat),
    (runSends st as).subscribers[i]? = (st.subscribers[i]?).map fun sub =>
      ⟨sub.channel, sub.queue ++
        (sentMessages st as).filter fun m => m.channel == sub.channel⟩ := by
  intro as
  induction as with
  | nil =>
    intro st i
    cases h : st.subscribers[i]? with
    | none => simp [runSends, sentMessages, h]
    | some sub => simp [runSends, sentMessages, h]
  | cons a as ih =>
    intro st i
    have hstep : (runSends st (a :: as)) = runSends (sendState st a) as := rfl
    rw [hstep, ih]
    have hsub : (sendState st a).subscribers =
        publish_nowait st.subscribers a.channel (sendMsg st a) := rfl
    rw [hsub]
    have hpn : (publish_nowait st.subscribers a.channel (sendMsg st a))[i]? =
        (st.subscribers[i]?).map fun sub =>
          if sub.channel = a.channel
          then ⟨sub.channel, sub.queue ++ [sendMsg st a]⟩ else sub := by
      simp [publish_nowait]
    rw [hpn, Option.map_map]
    have hmsgs : sentMessages st (a :: as) =
        sendMsg st a :: sentMessages (sendState st a) as := rfl
    rw [hmsgs]
    cases h : st.subscribers[i]? with
    | none => simp
    | some sub =>
      simp only [Option.map_some', Function.comp_apply, Option.some.injEq]
      by_cases hc : sub.channel = a.channel
      · have hch : (sendMsg st a).channel == sub.channel := by
          simp [sendMsg, send, mkStreamMessage, hc]
        simp [hc, List.filter_cons, hch, sendMsg, send, mkStreamMessage]
      · have hne : (sendMsg st a).channel ≠ sub.channel := by
          simp only [sendMsg, send, mkStreamMessage]
          exact fun hh => hc hh.symm
        have hch : ((sendMsg st a).channel == sub.channel) = false := by
          rw [beq_eq_false_iff_ne]
          exact hne
        simp [hc, List.filter_cons, hch]

theorem LoadingHandler.update_inv (h : LoadingHandler) (p : Option Nat)
    (hinv : pbarInv h.pbar) : pbarInv (h.update p).pbar := by
  obtain ⟨pbar⟩ := h
  cases pbar with
  | none =>
    cases p with
    | none => exact ⟨rfl, by simp, by simp⟩
    | some v =>
      show pbarInv (some ⟨0 + min v (100 - 0), 100,
        false || decide (0 + min v (100 - 0) = 100)⟩)
      refine ⟨rfl, ?_, by simp⟩
      show 0 + min v (100 - 0) ≤ 100
      omega
  | some pb =>
    obtain ⟨ht, hn, hcl⟩ := hinv
    cases p with
    | none => exact ⟨ht, hn, hcl⟩
    | some v =>
      show pbarInv (some ⟨(if pb.closed then pb.n else pb.n + min v (pb.total - pb.n)),
        pb.total, pb.closed ||
          decide ((if pb.closed then pb.n else pb.n + min v (pb.total - pb.n)) = pb.total)⟩)
      by_cases hc : pb.closed = true
      · have h100 : pb.n = pb.total := hcl.mp hc
        refine ⟨ht, ?_, ?_⟩
        · simp [hc, h100]
        · simp [hc, h100]
      · have hcf : pb.closed = false := by simpa using hc
        refine ⟨ht, ?_, ?_⟩
        · simp only [hcf, Bool.false_eq_true, if_false]
          omega
        · simp only [hcf, Bool.false_eq_true, if_false, Bool.false_or,
            decide_eq_true_eq]

theorem runUpdates_inv : ∀ (ps : List (Option Nat)) (h : LoadingHandler),
    pbarInv h.pbar → pbarInv (runUpdates h ps).pbar := by
  intro ps
  induction ps with
  | nil => intro h hi; exact hi
  | cons p ps ih =>
    intro h hi
    exact ih (h.update p) (LoadingHandler.update_inv h p hi)

/-! ## Claims -/

/-- C1 (counterexample): a Block-grammar edit set containing a single-line
deletion does not round-trip.  The canonical Block rendering of the
deletion of line 3 of `a.py` parses back as a replacement of line 3 by
one empty line, not as the deletion — the expressiveness gap of spec 9
and of the commented-out `test_block_to_replacement` test. -/
theorem c1_block_deletion_counterexample :
    (blockParse (blockToText [⟨"a.py", .edit, [⟨⟨3, 3⟩, []⟩]⟩])).edits =
      [⟨"a.py", .edit, [⟨⟨3, 3⟩, [[]]⟩]⟩] ∧
    (blockParse (blockToText [⟨"a.py", .edit, [⟨⟨3, 3⟩, []⟩]⟩])).edits ≠
      [⟨"a.py", .edit, [⟨⟨3, 3⟩, []⟩]⟩] := by
  constructor <;> decide

/-- C1 (amended): for every grammar and every canonical edit set
expressible in it, parsing the canonical rendering returns exactly the
original edit set (and no partial flag).  Expressibility for the Block
grammar excludes edit sets containing a deletion (empty replacement
body), which do not round-trip — see the counterexample. -/
theorem c1_round_trip (g : Grammar) (es : List FileEdit)
    (hc : canExpress g es = true) : parseG g (toTextG g es) = ⟨es, false⟩ :=
  roundtrip_toText g es hc

/-- C1 (witness): the round trip at a concrete Block-grammar edit set. -/
theorem c1_round_trip_witness :
    canExpress .block [⟨"a.py", .edit, [⟨⟨1, 2⟩, ["x".data]⟩]⟩] = true ∧
    parseG .block (toTextG .block [⟨"a.py", .edit, [⟨⟨1, 2⟩, ["x".data]⟩]⟩]) =
      ⟨[⟨"a.py", .edit, [⟨⟨1, 2⟩, ["x".data]⟩]⟩], false⟩ :=
  ⟨by decide, c1_round_trip .block _ (by decide)⟩

/-- C2 (counterexample): in the `test_not_matching` scenario the hunk's
`-` lines do align with the file (the `+`/`-` content occurs contiguously
at line index 1), yet the hunk is not applied: it is dropped, the result
is marked partial, and the file is left byte-identical — exactly what the
repository test asserts even after the user confirms with `"y"`. -/
theorem c2_alignment_counterexample :
    ((classifyHunk notMatchingHunk).map fun dls =>
      findSubseq (minusOnly dls) tmpFileLines) = some (some 1) ∧
    applyHunkLines tmpFileLines notMatchingHunk = none ∧
    applyHunks tmpFileLines [notMatchingHunk] = (tmpFileLines, true) := by
  refine ⟨by decide, by decide, by decide⟩

/-- C2 (amended): a deviant hunk is aligned against the file using its
full content — context and `-` lines together, not the `+`/`-` lines
alone.  When that old side occurs in the file the hunk applies there,
replacing it by the context and `+` lines; when it does not occur (or a
hunk line has no recognizable prefix) only that hunk is dropped and the
result is marked partial; a dropped hunk leaves the file byte-identical
under either user decision, and declining always leaves the original
content. -/
theorem c2_hunk_tolerance (file : List Chars) (hunk : List Line)
    (hs : List (List Line)) (dls : List DiffLine) (i : Nat) :
    (classifyHunk hunk = some dls → oldSide dls ≠ [] →
      findSubseq (oldSide dls) file = some i →
      ∃ A B, file = A ++ oldSide dls ++ B ∧ A.length = i ∧
        applyHunkLines file hunk = some (A ++ newSide dls ++ B)) ∧
    (applyHunkLines file hunk = none →
      applyHunks file (hunk :: hs) = ((applyHunks file hs).1, true)) ∧
    (applyHunkLines file hunk = none →
      ∀ d, finalContent file ((applyHunks file [hunk]).1) d = file) ∧
    (∀ applied, finalContent file applied .decline = file) := by
  refine ⟨?_, ?_, ?_, ?_⟩
  · intro hcl hno hfind
    exact applyHunkLines_aligned file hunk dls i hcl hno hfind
  · intro h
    simp [applyHunks, h]
  · intro h d
    cases d <;> simp [applyHunks, h, finalContent]
  · intro applied
    rfl

/-- C2 (witness): the corrected hunk aligns at line index 0 of the test
file and applies there. -/
theorem c2_hunk_tolerance_witness :
    classifyHunk alignedHunk = some alignedDiff ∧ oldSide alignedDiff ≠ [] ∧
    findSubseq (oldSide alignedDiff) tmpFileLines = some 0 ∧
    ∃ A B, tmpFileLines = A ++ oldSide alignedDiff ++ B ∧ A.length = 0 ∧
      applyHunkLines tmpFileLines alignedHunk = some (A ++ newSide alignedDiff ++ B) :=
  ⟨by decide, by decide, by decide,
    (c2_hunk_tolerance tmpFileLines alignedHunk [] alignedDiff 0).1
      (by decide) (by decide) (by decide)⟩

/-- C3: every `send` appends exactly the one message it constructs to the
end of the history; every `SessionStream` operation leaves the existing
history a prefix of the new one (nothing is mutated, removed or
reordered); and `publish_nowait` delivers the message by appending it to
the queue of every current subscriber of the channel, leaving every other
queue untouched (fire-and-forget: the delta of each queue never depends
on any subscriber's consumption). -/
theorem c3_send_append_only :
    (∀ (st : SessionStream) (op : StreamOp),
      st.messages <+: (stepOp st op).messages) ∧
    (∀ (st : SessionStream) (d : String) (s : StreamMessageSource) (c : String)
      (e : List (String × String)) (n : Nat),
      (send st d s c e n).1.messages = st.messages ++ [(send st d s c e n).2]) ∧
    (∀ (subs : List Subscriber) (c : String) (m : StreamMessage) (i : Nat),
      (publish_nowait subs c m)[i]? = (subs[i]?).map fun sub =>
        if sub.channel = c then ⟨sub.channel, sub.queue ++ [m]⟩ else sub) := by
  refine ⟨?_, ?_, ?_⟩
  · intro st op
    cases op with
    | sendOp d s c e n => exact ⟨[(send st d s c e n).2], rfl⟩
    | recvOp c => exact List.prefix_refl _
    | listenOp c => exact List.prefix_refl _
    | startOp => exact List.prefix_refl _
    | stopOp => exact List.prefix_refl _
  · intro st d s c e n
    rfl
  · intro subs c m i
    simp [publish_nowait]

/-- C4: a consumer subscribed by `listen(c)` receives exactly the
messages of the sends whose channel is `c`, in send order, and no message
of any other channel: after any sequence of sends its queue is the
channel-`c` filter of the messages sent after the subscription. -/
theorem c4_listen_filter (st : SessionStream) (c : String) (as : List SendArgs) :
    (runSends (subscribeState st c) as).subscribers[st.subscribers.length]? =
      some ⟨c, (sentMessages (subscribeState st c) as).filter
        fun m => m.channel == c⟩ := by
  rw [runSends_getElem]
  have hsub : (subscribeState st c).subscribers[st.subscribers.length]? =
      some ⟨c, []⟩ := by
    simp [subscribeState]
  rw [hsub]
  simp

/-- C5: for a non-quit reply the client performs exactly one send, on the
derived channel of the request id; in a trace with the replies to two
requests with distinct ids, `recv` on each derived channel returns
exactly the one reply to that request (carrying that request's user
input), never the other one. -/
theorem c5_request_isolation (st : SessionStream) (id1 id2 : Nat)
    (in1 in2 : String) (n1 n2 : Nat)
    (hid : id1 ≠ id2) (h1 : in1 ≠ "q") (_h2 : in2 ≠ "q") :
    handleInputRequest id1 in1 n1 = (false, some (replyArgs id1 in1 n1)) ∧
    (replyArgs id1 in1 n1).channel = derivedChannel id1 ∧
    recvResult st (derivedChannel id1)
      [replyArgs id1 in1 n1, replyArgs id2 in2 n2] =
      some (sendMsg st (replyArgs id1 in1 n1)) ∧
    recvResult st (derivedChannel id2)
      [replyArgs id1 in1 n1, replyArgs id2 in2 n2] =
      some (sendMsg (sendState st (replyArgs id1 in1 n1)) (replyArgs id2 in2 n2)) ∧
    (sendMsg st (replyArgs id1 in1 n1)).channel = derivedChannel id1 ∧
    (sendMsg st (replyArgs id1 in1 n1)).data = in1 ∧
    (sendMsg (sendState st (replyArgs id1 in1 n1)) (replyArgs id2 in2 n2)).channel =
      derivedChannel id2 ∧
    (sendMsg (sendState st (replyArgs id1 in1 n1)) (replyArgs id2 in2 n2)).data =
      in2 := by
  have hch1 : (sendMsg st (replyArgs id1 in1 n1)).channel = derivedChannel id1 := rfl
  have hch2 : (sendMsg (sendState st (replyArgs id1 in1 n1))
      (replyArgs id2 in2 n2)).channel = derivedChannel id2 := rfl
  have hne : derivedChannel id1 ≠ derivedChannel id2 :=
    fun hh => hid (derivedChannel_inj _ _ hh)
  refine ⟨by simp [handleInputRequest, h1], rfl, ?_, ?_, rfl, rfl, rfl, rfl⟩
  · simp only [recvResult, sentMessages]
    rw [List.find?_cons_of_pos]
    simp [hch1]
  · simp only [recvResult, sentMessages]
    rw [List.find?_cons_of_neg, List.find?_cons_of_pos]
    · simp [hch2]
    · simp [hch1, hne]

/-- C5 (witness): the isolation statement at two concrete requests. -/
theorem c5_request_isolation_witness :
    (0 : Nat) ≠ 1 ∧ ("y" : String) ≠ "q" ∧ ("n" : String) ≠ "q" ∧
    recvResult SessionStream.init (derivedChannel 0)
      [replyArgs 0 "y" 0, replyArgs 1 "n" 1] =
      some (sendMsg SessionStream.init (replyArgs 0 "y" 0)) :=
  ⟨by decide, by decide, by decide,
    (c5_request_isolation SessionStream.init 0 1 "y" "n" 0 1 (by decide)
      (by decide) (by decide)).2.2.1⟩

/-- C6: the interval literal `"a.py:1-5,7,12-40"` splits at its last
colon and its range list parses to the 1-indexed inclusive intervals
`[(1,5), (7,7), (12,40)]`; the inverted range of `"a.py:5-1"` is
rejected (so `expand_paths` reports the path invalid and exits during
argument handling, before any network call). -/
theorem c6_interval_literals :
    lastSplitColon "a.py:1-5,7,12-40" = ("a.py", some "1-5,7,12-40") ∧
    parse_intervals "1-5,7,12-40" = some [⟨1, 5⟩, ⟨7, 7⟩, ⟨12, 40⟩] ∧
    lastSplitColon "a.py:5-1" = ("a.py", some "5-1") ∧
    parse_intervals "5-1" = none := by
  refine ⟨by decide, by decide, by decide, by decide⟩

/-- C7: the message constructed by `send` has exactly the wire fields
`(id, channel, source, data, extra, created_at)`, with channel, source,
data and extra equal to the caller's arguments and the timestamp equal to
the clock value; the message is returned and appended to the history; its
id comes fresh from the id supply, so it differs from the id of every
message already in the history, and freshness is preserved. -/
theorem c7_wire_shape (st : SessionStream) (d : String) (s : StreamMessageSource)
    (c : String) (e : List (String × String)) (n : Nat) :
    ((send st d s c e n).2 = ⟨st.nextId, c, s, d, e, n⟩ ∧
      (send st d s c e n).1.messages = st.messages ++ [(send st d s c e n).2]) ∧
    ((∀ m' ∈ st.messages, m'.id < st.nextId) →
      (∀ m' ∈ st.messages, m'.id ≠ (send st d s c e n).2.id) ∧
      (∀ m'' ∈ (send st d s c e n).1.messages,
        m''.id < (send st d s c e n).1.nextId)) := by
  refine ⟨⟨rfl, rfl⟩, fun hw => ⟨?_, ?_⟩⟩
  · intro m' hm'
    have := hw m' hm'
    simp only [send, mkStreamMessage]
    omega
  · intro m'' hm''
    simp only [send, mkStreamMessage] at hm'' ⊢
    rcases List.mem_append.mp hm'' with h | h
    · have := hw m'' h
      omega
    · have hm : m'' = ⟨st.nextId, c, s, d, e, n⟩ := by simpa using h
      rw [hm]
      simp

/-- C7 (witness): freshness at the initial state. -/
theorem c7_wire_shape_witness :
    (∀ m' ∈ SessionStream.init.messages, m'.id < SessionStream.init.nextId) ∧
    (∀ m' ∈ SessionStream.init.messages,
      m'.id ≠ (send SessionStream.init "hello" .server "default" [] 0).2.id) :=
  ⟨by simp [SessionStream.init],
    ((c7_wire_shape SessionStream.init "hello" .server "default" [] 0).2
      (by simp [SessionStream.init])).1⟩

/-- C8: translating a text from grammar A to grammar B and back
reproduces the original edit set whenever both grammars can express it
exactly: if the text parses in A to an edit set expressible in both, the
double translation parses back in A to that same edit set.  `translate`
is a pure function (parse fully with the source grammar, render with the
target grammar's `to_text`). -/
theorem c8_translate_round_trip (A B : Grammar) (t : Text) (E : List FileEdit)
    (hparse : (parseG A t).edits = E)
    (hA : canExpress A E = true) (hB : canExpress B E = true) :
    (parseG A (translate (translate t A B) B A)).edits = E := by
  have h1 : translate t A B = toTextG B E := by simp [translate, hparse]
  have h2 : translate (toTextG B E) B A = toTextG A E := by
    simp [translate, roundtrip_toText B E hB]
  rw [h1, h2, roundtrip_toText A E hA]

/-- C8 (witness): the double translation Replacement → Git → Replacement
at a concrete edit set containing a deletion. -/
theorem c8_translate_round_trip_witness :
    (parseG .replacement (toTextG .replacement sampleEditSet)).edits =
      sampleEditSet ∧
    canExpress .replacement sampleEditSet = true ∧
    canExpress .git sampleEditSet = true ∧
    (parseG .replacement (translate (translate (toTextG .replacement sampleEditSet)
      .replacement .git) .git .replacement)).edits = sampleEditSet :=
  ⟨by decide, by decide, by decide,
    c8_translate_round_trip .replacement .git (toTextG .replacement sampleEditSet)
      sampleEditSet (by decide) (by decide) (by decide)⟩

/-- C9: when the user answers an input request with exactly `"q"`, the
client sets its exit flag and returns without sending anything, so no
message is ever published on the derived reply channel and a `recv`
awaiting that channel never returns a message: over any trace of sends
that avoids the derived channel, `recv` on it yields nothing. -/
theorem c9_quit_no_reply (reqId now : Nat) (st : SessionStream)
    (as : List SendArgs) :
    handleInputRequest reqId "q" now = (true, none) ∧
    ((∀ a ∈ as, a.channel ≠ derivedChannel reqId) →
      recvResult st (derivedChannel reqId) as = none) := by
  refine ⟨rfl, ?_⟩
  induction as generalizing st with
  | nil => intro _; rfl
  | cons a as ih =>
    intro hall
    have hne : (sendMsg st a).channel ≠ derivedChannel reqId :=
      hall a (List.mem_cons_self a as)
    have hch : ((sendMsg st a).channel == derivedChannel reqId) = false := by
      rw [beq_eq_false_iff_ne]
      exact hne
    have hstep : recvResult st (derivedChannel reqId) (a :: as) =
        recvResult (sendState st a) (derivedChannel reqId) as := by
      simp only [recvResult, sentMessages]
      rw [List.find?_cons_of_neg]
      simp [hch]
    rw [hstep]
    exact ih (sendState st a) fun x hx => hall x (List.mem_cons_of_mem a hx)

/-- C9 (witness): a quit decision alongside an unrelated interrupt send. -/
theorem c9_quit_no_reply_witness :
    (∀ a ∈ [(⟨"", .client, "interrupt", [], 0⟩ : SendArgs)],
      a.channel ≠ derivedChannel 7) ∧
    recvResult SessionStream.init (derivedChannel 7)
      [⟨"", .client, "interrupt", [], 0⟩] = none :=
  ⟨by decide,
    (c9_quit_no_reply 7 0 SessionStream.init
      [⟨"", .client, "interrupt", [], 0⟩]).2 (by decide)⟩

/-- C10: over every sequence of `LoadingHandler.update` calls from a
fresh handler, the accumulated count of the bar never exceeds its total
of 100 (each increment is clamped to the remaining capacity) and the bar
is closed exactly when the count reaches the total. -/
theorem c10_loading_invariant (ps : List (Option Nat)) :
    pbarInv ((runUpdates LoadingHandler.init ps).pbar) :=
  runUpdates_inv ps LoadingHandler.init trivial

end Mentat
